import Mathlib

/-!
# Verification of the SEMFE heat-transfer solver core

Shallow embedding, over `ℚ`, of the assembly-and-boundary-condition engine of
`Solver.py` together with the pipeline of `main.py`.  Numbers are modelled as
exact rationals; the only genuinely irrational quantity in the source,
`np.hypot` (the Euclidean edge length), is abstracted as an explicit function
parameter `hyp : ℚ → ℚ → ℚ` of the two appliers that use it, so every theorem
below quantifies over `hyp` and in particular covers the Euclidean one.

Python/numpy behaviours modelled explicitly:
* numpy integer indexing `elems[i]` accepts `-ne ≤ i < ne` (negative indices
  wrap) and raises `IndexError` otherwise; the dict lookup used for the local
  edge map raises `KeyError` off `{1,2,3}`.  Fallible appliers therefore
  return `Option`, `none` standing for a raised exception.
* the fancy-index in-place addition `fmod[conn[edge_nodes]] += fe` buffers
  its reads: both writes read the pre-statement vector, and on duplicate
  indices the later write wins.
* in-place mutation of argument arrays versus copying is captured by the
  `*_py` wrappers at the bottom of the definition section, which return the
  final contents of the caller's argument objects next to the return value.
-/

namespace SEMFE

/-- Nodal vectors, indexed by global node id. -/
abbrev Vec (n : ℕ) : Type := Fin n → ℚ

/-- Square global matrices, indexed by global node id. -/
abbrev Mat (n : ℕ) : Type := Matrix (Fin n) (Fin n) ℚ

/-! ## Element stiffness kernel (`element_stiffness_triangle`) -/

/-- Determinant of the Jacobian `J = [[x2-x1, x3-x1], [y2-y1, y3-y1]]` built
from the three node coordinates, as in the source. -/
def det_J (c : Fin 3 → ℚ × ℚ) : ℚ :=
  ((c 1).1 - (c 0).1) * ((c 2).2 - (c 0).2) - ((c 2).1 - (c 0).1) * ((c 1).2 - (c 0).2)

/-- The constant 2×3 shape-function derivative matrix
`B = (1/det J) * [[y2-y3, y3-y1], [x3-x2, x1-x3]] @ [[1,0,-1],[0,1,-1]]`. -/
def Bmat (c : Fin 3 → ℚ × ℚ) : Matrix (Fin 2) (Fin 3) ℚ :=
  (1 / det_J c) •
    (!![(c 1).2 - (c 2).2, (c 2).2 - (c 0).2; (c 2).1 - (c 1).1, (c 0).1 - (c 2).1] *
      !![(1 : ℚ), 0, -1; 0, 1, -1])

/-- `element_stiffness_triangle`: local 3×3 conduction stiffness
`Ke = k * area * Bᵀ B` with `area = |det J| / 2`. -/
def element_stiffness_triangle (c : Fin 3 → ℚ × ℚ) (k : ℚ) : Matrix (Fin 3) (Fin 3) ℚ :=
  k • ((abs (det_J c) / 2) • ((Bmat c).transpose * Bmat c))

/-! ## Global assembler (`assemble_global`) -/

/-- Coordinates of an element's three nodes (`nodes[conn, :2]`). -/
def elemCoords {nn ne : ℕ} (nodes : Fin nn → ℚ × ℚ) (elems : Fin ne → Fin 3 → Fin nn)
    (e : Fin ne) : Fin 3 → ℚ × ℚ :=
  fun l => nodes (elems e l)

/-- `assemble_global`: COO scatter-add of every `Ke[a,b]` into global position
`(conn[a], conn[b])`, compressed to a dense array; entry `(i,j)` is the sum of
all contributions landing there. -/
def assemble_global {nn ne : ℕ} (nodes : Fin nn → ℚ × ℚ) (elems : Fin ne → Fin 3 → Fin nn)
    (k : ℚ) : Mat nn :=
  Matrix.of fun i j =>
    ∑ e : Fin ne, ∑ a : Fin 3, ∑ b : Fin 3,
      if elems e a = i ∧ elems e b = j then element_stiffness_triangle (elemCoords nodes elems e) k a b
      else 0

/-! ## Dirichlet applier (`apply_dirichlet`) -/

/-- One Dirichlet record applied in source order: `K[node,:] = 0`, `K[:,node] = 0`,
`K[node,node] = 1`, `f[node] = val`. -/
def dirichlet_step {nn : ℕ} (K : Mat nn) (f : Vec nn) (p : Fin nn) (v : ℚ) : Mat nn × Vec nn :=
  (Matrix.of fun i j => if i = p ∧ j = p then 1 else if i = p ∨ j = p then 0 else K i j,
   Function.update f p v)

/-- The `for node, val in zip(...)` loop of `apply_dirichlet`. -/
def dirichlet_go {nn : ℕ} (K : Mat nn) (f : Vec nn) : List (Fin nn × ℚ) → Mat nn × Vec nn
  | [] => (K, f)
  | (p, v) :: rest => dirichlet_go (dirichlet_step K f p v).1 (dirichlet_step K f p v).2 rest

/-- `apply_dirichlet`: zip the node and value lists and process them in order.
(The returned matrix is the caller's matrix object, mutated in place; the
returned vector is a fresh copy — see `apply_dirichlet_py`.) -/
def apply_dirichlet {nn : ℕ} (K : Mat nn) (f : Vec nn) (bc_nodes : List (Fin nn))
    (bc_values : List ℚ) : Mat nn × Vec nn :=
  dirichlet_go K f (bc_nodes.zip bc_values)

/-! ## Shared edge machinery of the Neumann and Robin appliers -/

/-- numpy integer indexing into the element table: ids in `[0, ne)` are used
directly, ids in `[-ne, 0)` wrap around, anything else raises `IndexError`. -/
def npIndex (n : ℕ) (i : ℤ) : Option (Fin n) :=
  if h : 0 ≤ i ∧ i < (n : ℤ) then some ⟨i.toNat, by omega⟩
  else if h2 : -(n : ℤ) ≤ i ∧ i < 0 then some ⟨(i + n).toNat, by omega⟩
  else none

/-- The dict lookup `{1: [0,1], 2: [1,2], 3: [2,0]}[int(edge_id)]`; any other
key raises `KeyError`. -/
def edgeLocalNodes (edge_id : ℤ) : Option (Fin 3 × Fin 3) :=
  if edge_id = 1 then some (0, 1)
  else if edge_id = 2 then some (1, 2)
  else if edge_id = 3 then some (2, 0)
  else none

/-- Resolve one boundary record's element and edge: the two global node ids and
the edge length `L = hypot(x2-x1, y2-y1)` (the length function `hyp` abstracts
`np.hypot`). `none` is a raised `IndexError`/`KeyError`. -/
def resolveEdge {nn ne : ℕ} (hyp : ℚ → ℚ → ℚ) (nodes : Fin nn → ℚ × ℚ)
    (elems : Fin ne → Fin 3 → Fin nn) (elem_id edge_id : ℤ) :
    Option (Fin nn × Fin nn × ℚ) :=
  match npIndex ne elem_id with
  | none => none
  | some e =>
    match edgeLocalNodes edge_id with
    | none => none
    | some (n1, n2) =>
      let g1 := elems e n1
      let g2 := elems e n2
      let L := hyp ((nodes g2).1 - (nodes g1).1) ((nodes g2).2 - (nodes g1).2)
      some (g1, g2, L)

/-- The buffered numpy fancy-index statement `v[[g1, g2]] += [a, b]`: both
reads see the pre-statement vector, and on `g1 = g2` the second write wins. -/
def fancyAdd2 {nn : ℕ} (v : Vec nn) (g1 g2 : Fin nn) (a b : ℚ) : Vec nn :=
  Function.update (Function.update v g1 (v g1 + a)) g2 (v g2 + b)

/-! ## Neumann applier (`apply_heat_flux`) -/

/-- One `(elem_id, edge_id, q)` record of `apply_heat_flux`:
`fe = (q*L/2)*[1,1]` added into the two resolved global entries. -/
def flux_step {nn ne : ℕ} (hyp : ℚ → ℚ → ℚ) (nodes : Fin nn → ℚ × ℚ)
    (elems : Fin ne → Fin 3 → Fin nn) (f : Vec nn) (r : ℤ × ℤ × ℚ) : Option (Vec nn) :=
  match resolveEdge hyp nodes elems r.1 r.2.1 with
  | none => none
  | some (g1, g2, L) => some (fancyAdd2 f g1 g2 (r.2.2 * L / 2) (r.2.2 * L / 2))

/-- `apply_heat_flux`: fold the records over a copy of the load vector;
a record that raises aborts the whole call (`none`), and the matrix `K` is
never an argument, so it is untouched by construction. -/
def apply_heat_flux {nn ne : ℕ} (hyp : ℚ → ℚ → ℚ) (f : Vec nn) (nodes : Fin nn → ℚ × ℚ)
    (elems : Fin ne → Fin 3 → Fin nn) : List (ℤ × ℤ × ℚ) → Option (Vec nn)
  | [] => some f
  | r :: rs =>
    match flux_step hyp nodes elems f r with
    | none => none
    | some f' => apply_heat_flux hyp f' nodes elems rs

/-! ## Robin applier (`apply_convection`) -/

/-- In-place update of one matrix entry (`Kmod[i, j] += x` reads the current
matrix, so sequential updates accumulate). -/
def updEntry {nn : ℕ} (K : Mat nn) (i j : Fin nn) (x : ℚ) : Mat nn :=
  Matrix.of fun a b => if a = i ∧ b = j then x else K a b

/-- One `(elem_id, edge_id, h, Tinf)` record of `apply_convection`: scatter-add
the local matrix `(h*L/6)*[[2,1],[1,2]]` into the four global positions (four
sequential `+=` statements) and `(h*Tinf*L/2)*[1,1]` into the load vector. -/
def conv_step {nn ne : ℕ} (hyp : ℚ → ℚ → ℚ) (nodes : Fin nn → ℚ × ℚ)
    (elems : Fin ne → Fin 3 → Fin nn) (K : Mat nn) (f : Vec nn) (r : ℤ × ℤ × ℚ × ℚ) :
    Option (Mat nn × Vec nn) :=
  match resolveEdge hyp nodes elems r.1 r.2.1 with
  | none => none
  | some (g1, g2, L) =>
    let h := r.2.2.1
    let Tinf := r.2.2.2
    let Kl : Matrix (Fin 2) (Fin 2) ℚ := (h * L / 6) • !![(2 : ℚ), 1; 1, 2]
    let fl := h * Tinf * L / 2
    let f' := fancyAdd2 f g1 g2 fl fl
    let K1 := updEntry K g1 g1 (K g1 g1 + Kl 0 0)
    let K2 := updEntry K1 g1 g2 (K1 g1 g2 + Kl 0 1)
    let K3 := updEntry K2 g2 g1 (K2 g2 g1 + Kl 1 0)
    let K4 := updEntry K3 g2 g2 (K3 g2 g2 + Kl 1 1)
    some (K4, f')

/-- `apply_convection`: fold the records over copies `Kmod`, `fmod` of the
arguments; a record that raises aborts the whole call (`none`). -/
def apply_convection {nn ne : ℕ} (hyp : ℚ → ℚ → ℚ) (K : Mat nn) (f : Vec nn)
    (nodes : Fin nn → ℚ × ℚ) (elems : Fin ne → Fin 3 → Fin nn) :
    List (ℤ × ℤ × ℚ × ℚ) → Option (Mat nn × Vec nn)
  | [] => some (K, f)
  | r :: rs =>
    match conv_step hyp nodes elems K f r with
    | none => none
    | some (K', f') => apply_convection hyp K' f' nodes elems rs

/-! ## The end-to-end pipeline of `main.py` -/

/-- The `main.py` pipeline, lines 35–54: assemble `K`, start from a zero load
vector, apply heat flux, then convection, then Dirichlet, and hand the result
to the solver.  Line 46 of the source passes `K` — not the convection-modified
`Kmod` — to `apply_dirichlet`, so the convection applier's matrix result is
discarded; the embedding reproduces that slip faithfully. -/
def main_pipeline {nn ne : ℕ} (hyp : ℚ → ℚ → ℚ) (nodes : Fin nn → ℚ × ℚ)
    (elems : Fin ne → Fin 3 → Fin nn) (k : ℚ) (heat_flux_bcs : List (ℤ × ℤ × ℚ))
    (conv_bcs : List (ℤ × ℤ × ℚ × ℚ)) (bc_nodes : List (Fin nn)) (bc_values : List ℚ) :
    Option (Mat nn × Vec nn) :=
  let K := assemble_global nodes elems k
  match apply_heat_flux hyp (fun _ => 0) nodes elems heat_flux_bcs with
  | none => none
  | some fmod =>
    match apply_convection hyp K fmod nodes elems conv_bcs with
    | none => none
    | some (_Kmod, fmod2) => some (apply_dirichlet K fmod2 bc_nodes bc_values)

/-- Modelled from the spec: the pipeline as §2 describes it, identical to
`main_pipeline` except that Dirichlet elimination is applied on top of the
convection-modified matrix `Kmod`, so the solved matrix contains the Robin
terms.  Used only to compare against `main_pipeline`. -/
def spec_pipeline {nn ne : ℕ} (hyp : ℚ → ℚ → ℚ) (nodes : Fin nn → ℚ × ℚ)
    (elems : Fin ne → Fin 3 → Fin nn) (k : ℚ) (heat_flux_bcs : List (ℤ × ℤ × ℚ))
    (conv_bcs : List (ℤ × ℤ × ℚ × ℚ)) (bc_nodes : List (Fin nn)) (bc_values : List ℚ) :
    Option (Mat nn × Vec nn) :=
  let K := assemble_global nodes elems k
  match apply_heat_flux hyp (fun _ => 0) nodes elems heat_flux_bcs with
  | none => none
  | some fmod =>
    match apply_convection hyp K fmod nodes elems conv_bcs with
    | none => none
    | some (Kmod, fmod2) => some (apply_dirichlet Kmod fmod2 bc_nodes bc_values)

/-! ## Mutation model: what each applier does to the caller's argument objects

Each `*_py` wrapper returns the final contents of the caller's argument
arrays next to the function's return value, read off the source line by line:
`apply_dirichlet` copies `f` (`f = f.copy()`) but writes `K[node,:]`,
`K[:,node]`, `K[node,node]` in place and returns that same object, while
`apply_heat_flux` and `apply_convection` copy everything they touch
(`fmod = f.copy()`, `Kmod = K.copy()`) and never write to an argument. -/

/-- `apply_dirichlet` at the object level: the caller's matrix ends up holding
the eliminated matrix (same object as the first returned component); the
caller's vector is unchanged. -/
def apply_dirichlet_py {nn : ℕ} (K : Mat nn) (f : Vec nn) (bc_nodes : List (Fin nn))
    (bc_values : List ℚ) : (Mat nn × Vec nn) × (Mat nn × Vec nn) :=
  (((apply_dirichlet K f bc_nodes bc_values).1, f), apply_dirichlet K f bc_nodes bc_values)

/-- `apply_heat_flux` at the object level: the caller's vector is unchanged
whether the call returns (`some`) or raises (`none`). -/
def apply_heat_flux_py {nn ne : ℕ} (hyp : ℚ → ℚ → ℚ) (f : Vec nn) (nodes : Fin nn → ℚ × ℚ)
    (elems : Fin ne → Fin 3 → Fin nn) (recs : List (ℤ × ℤ × ℚ)) :
    Vec nn × Option (Vec nn) :=
  (f, apply_heat_flux hyp f nodes elems recs)

/-- `apply_convection` at the object level: the caller's matrix and vector are
unchanged whether the call returns or raises. -/
def apply_convection_py {nn ne : ℕ} (hyp : ℚ → ℚ → ℚ) (K : Mat nn) (f : Vec nn)
    (nodes : Fin nn → ℚ × ℚ) (elems : Fin ne → Fin 3 → Fin nn)
    (recs : List (ℤ × ℤ × ℚ × ℚ)) : (Mat nn × Vec nn) × Option (Mat nn × Vec nn) :=
  ((K, f), apply_convection hyp K f nodes elems recs)

/-! ## Derived notions used by the theorems -/

/-- Value of the last Dirichlet record in processing order naming node `p`. -/
def lastVal {nn : ℕ} : List (Fin nn × ℚ) → Fin nn → Option ℚ
  | [], _ => none
  | (q, w) :: rest, p =>
    match lastVal rest p with
    | some v => some v
    | none => if q = p then some w else none

/-- `Constrained K f p v`: row `p` and column `p` of `K` are zero off the
diagonal, the diagonal entry is `1`, and `f p = v`. -/
def Constrained {nn : ℕ} (K : Mat nn) (f : Vec nn) (p : Fin nn) (v : ℚ) : Prop :=
  (∀ j, j ≠ p → K p j = 0) ∧ (∀ i, i ≠ p → K i p = 0) ∧ K p p = 1 ∧ f p = v

/-! ## Derived record-wise quantities used to state the applier theorems -/

/-- Per-record Neumann load contribution at node `i`: `q*L/2` at each of the
two resolved edge nodes, `0` elsewhere (and `0` for an unresolvable record). -/
def fluxContrib {nn ne : ℕ} (hyp : ℚ → ℚ → ℚ) (nodes : Fin nn → ℚ × ℚ)
    (elems : Fin ne → Fin 3 → Fin nn) (r : ℤ × ℤ × ℚ) (i : Fin nn) : ℚ :=
  match resolveEdge hyp nodes elems r.1 r.2.1 with
  | none => 0
  | some (g1, g2, L) =>
    (if i = g1 then r.2.2 * L / 2 else 0) + (if i = g2 then r.2.2 * L / 2 else 0)

/-- Total Neumann load added by a record list at node `i`. -/
def fluxLoad {nn ne : ℕ} (hyp : ℚ → ℚ → ℚ) (nodes : Fin nn → ℚ × ℚ)
    (elems : Fin ne → Fin 3 → Fin nn) (recs : List (ℤ × ℤ × ℚ)) (i : Fin nn) : ℚ :=
  (recs.map fun r => fluxContrib hyp nodes elems r i).sum

/-- Per-record Robin matrix contribution at entry `(i,j)`: the 2×2 local
matrix `(h*L/6)*[[2,1],[1,2]]` scattered to the four positions built from the
two resolved edge nodes. -/
def convContribMat {nn ne : ℕ} (hyp : ℚ → ℚ → ℚ) (nodes : Fin nn → ℚ × ℚ)
    (elems : Fin ne → Fin 3 → Fin nn) (r : ℤ × ℤ × ℚ × ℚ) (i j : Fin nn) : ℚ :=
  match resolveEdge hyp nodes elems r.1 r.2.1 with
  | none => 0
  | some (g1, g2, L) =>
    (if i = g1 ∧ j = g1 then 2 * (r.2.2.1 * L / 6) else 0) +
    (if i = g1 ∧ j = g2 then r.2.2.1 * L / 6 else 0) +
    (if i = g2 ∧ j = g1 then r.2.2.1 * L / 6 else 0) +
    (if i = g2 ∧ j = g2 then 2 * (r.2.2.1 * L / 6) else 0)

/-- Total Robin matrix addition of a record list at entry `(i,j)`. -/
def convLoadMat {nn ne : ℕ} (hyp : ℚ → ℚ → ℚ) (nodes : Fin nn → ℚ × ℚ)
    (elems : Fin ne → Fin 3 → Fin nn) (recs : List (ℤ × ℤ × ℚ × ℚ)) (i j : Fin nn) : ℚ :=
  (recs.map fun r => convContribMat hyp nodes elems r i j).sum

/-- Per-record Robin load contribution at node `i`: `h*Tinf*L/2` at each of
the two resolved edge nodes. -/
def convContribVec {nn ne : ℕ} (hyp : ℚ → ℚ → ℚ) (nodes : Fin nn → ℚ × ℚ)
    (elems : Fin ne → Fin 3 → Fin nn) (r : ℤ × ℤ × ℚ × ℚ) (i : Fin nn) : ℚ :=
  match resolveEdge hyp nodes elems r.1 r.2.1 with
  | none => 0
  | some (g1, g2, L) =>
    (if i = g1 then r.2.2.1 * r.2.2.2 * L / 2 else 0) +
    (if i = g2 then r.2.2.1 * r.2.2.2 * L / 2 else 0)

/-- Total Robin load addition of a record list at node `i`. -/
def convLoadVec {nn ne : ℕ} (hyp : ℚ → ℚ → ℚ) (nodes : Fin nn → ℚ × ℚ)
    (elems : Fin ne → Fin 3 → Fin nn) (recs : List (ℤ × ℤ × ℚ × ℚ)) (i : Fin nn) : ℚ :=
  (recs.map fun r => convContribVec hyp nodes elems r i).sum

/-- A record both appliers reject by raising: local edge id outside `{1,2,3}`
or element id outside numpy's accepted range `[-ne, ne)`. -/
def RecRejected (ne : ℕ) (elem_id edge_id : ℤ) : Prop :=
  (edge_id ≠ 1 ∧ edge_id ≠ 2 ∧ edge_id ≠ 3) ∨ elem_id < -(ne : ℤ) ∨ (ne : ℤ) ≤ elem_id

/-- A record both appliers resolve and apply: the element id is accepted by
numpy indexing and the edge id is a dict key; `Resolves` also records the two
distinct resolved endpoints (distinct because valid meshes have non-degenerate
elements). -/
def Resolves {nn ne : ℕ} (hyp : ℚ → ℚ → ℚ) (nodes : Fin nn → ℚ × ℚ)
    (elems : Fin ne → Fin 3 → Fin nn) (elem_id edge_id : ℤ) : Prop :=
  ∃ g1 g2 L, resolveEdge hyp nodes elems elem_id edge_id = some (g1, g2, L) ∧ g1 ≠ g2

/-! ## Concrete instances used by witnesses and counterexamples -/

/-- Unit right triangle: nodes `(0,0)`, `(1,0)`, `(0,1)`. -/
def nodes₀ : Fin 3 → ℚ × ℚ := ![(0, 0), (1, 0), (0, 1)]

/-- One element spanning the three nodes. -/
def elems₀ : Fin 1 → Fin 3 → Fin 3 := ![![0, 1, 2]]

/-- Concrete stand-in for `np.hypot`; agrees with the Euclidean length on
axis-aligned segments, which covers every edge the concrete instances use. -/
def hyp₀ : ℚ → ℚ → ℚ := fun dx dy => abs dx + abs dy

/-- Concrete 2×2 system used by the C2 witness. -/
def Kw : Mat 2 := Matrix.of fun _ _ => (7 : ℚ)

/-- Concrete load vector used by the C2 witness. -/
def fw : Vec 2 := fun _ => 2

/-- Concrete 3×3 matrix used by witnesses. -/
def Kw3 : Mat 3 := Matrix.of fun _ _ => (1 : ℚ)

/-- Concrete 3-vector used by witnesses. -/
def fw3 : Vec 3 := fun _ => 0

/-! ## Dirichlet lemmas -/

lemma dirichlet_step_fst_apply {nn : ℕ} (K : Mat nn) (f : Vec nn) (p : Fin nn) (v : ℚ)
    (i j : Fin nn) :
    (dirichlet_step K f p v).1 i j =
      if i = p ∧ j = p then 1 else if i = p ∨ j = p then 0 else K i j := rfl

lemma dirichlet_step_establishes {nn : ℕ} (K : Mat nn) (f : Vec nn) (p : Fin nn) (v : ℚ) :
    Constrained (dirichlet_step K f p v).1 (dirichlet_step K f p v).2 p v := by
  refine ⟨fun j hj => ?_, fun i hi => ?_, ?_, ?_⟩
  · rw [dirichlet_step_fst_apply]
    simp [hj]
  · rw [dirichlet_step_fst_apply]
    simp [hi]
  · rw [dirichlet_step_fst_apply]
    simp
  · simp [dirichlet_step, Function.update_same]

lemma dirichlet_step_preserves {nn : ℕ} {K : Mat nn} {f : Vec nn} {p q : Fin nn} {v w : ℚ}
    (hqp : q ≠ p) (h : Constrained K f p v) :
    Constrained (dirichlet_step K f q w).1 (dirichlet_step K f q w).2 p v := by
  obtain ⟨h1, h2, h3, h4⟩ := h
  refine ⟨fun j hj => ?_, fun i hi => ?_, ?_, ?_⟩
  · rw [dirichlet_step_fst_apply]
    rcases eq_or_ne j q with rfl | hjq
    · simp [hqp.symm]
    · simp [hqp.symm, hjq, h1 j hj]
  · rw [dirichlet_step_fst_apply]
    rcases eq_or_ne i q with rfl | hiq
    · simp [hqp.symm]
    · simp [hqp.symm, hiq, h2 i hi]
  · rw [dirichlet_step_fst_apply]
    simp [hqp.symm, h3]
  · simpa [dirichlet_step, Function.update_noteq hqp.symm] using h4

lemma dirichlet_go_preserves {nn : ℕ} {p : Fin nn} {v : ℚ} (recs : List (Fin nn × ℚ)) :
    ∀ (K : Mat nn) (f : Vec nn), (∀ q w, (q, w) ∈ recs → q ≠ p) → Constrained K f p v →
      Constrained (dirichlet_go K f recs).1 (dirichlet_go K f recs).2 p v := by
  induction recs with
  | nil => intro K f _ h; exact h
  | cons r rest ih =>
    obtain ⟨q, w⟩ := r
    intro K f hmem h
    exact ih _ _ (fun q' w' hm => hmem q' w' (List.mem_cons_of_mem _ hm))
      (dirichlet_step_preserves (hmem q w (List.mem_cons_self _ _)) h)

lemma lastVal_none_not_mem {nn : ℕ} {p : Fin nn} (recs : List (Fin nn × ℚ)) :
    lastVal recs p = none → ∀ q w, (q, w) ∈ recs → q ≠ p := by
  induction recs with
  | nil => intro _ q w hm; exact absurd hm (List.not_mem_nil _)
  | cons r rest ih =>
    obtain ⟨q', w'⟩ := r
    intro h q w hm
    cases hr : lastVal rest p with
    | some v => simp [lastVal, hr] at h
    | none =>
      have hq' : q' ≠ p := by
        intro hq'
        simp [lastVal, hr, hq'] at h
      rcases List.mem_cons.1 hm with hh | hh
      · cases hh; exact hq'
      · exact ih hr q w hh

lemma dirichlet_go_lastVal {nn : ℕ} {p : Fin nn} {v : ℚ} (recs : List (Fin nn × ℚ)) :
    ∀ (K : Mat nn) (f : Vec nn), lastVal recs p = some v →
      Constrained (dirichlet_go K f recs).1 (dirichlet_go K f recs).2 p v := by
  induction recs with
  | nil => intro K f h; simp [lastVal] at h
  | cons r rest ih =>
    obtain ⟨q, w⟩ := r
    intro K f h
    cases hr : lastVal rest p with
    | some v' =>
      have hv : v' = v := by
        rw [show lastVal ((q, w) :: rest) p = some v' by simp [lastVal, hr]] at h
        exact Option.some.inj h
      rw [hv] at hr
      exact ih _ _ hr
    | none =>
      have hq : q = p ∧ w = v := by
        by_cases hqp : q = p
        · refine ⟨hqp, ?_⟩
          rw [show lastVal ((q, w) :: rest) p = some w by simp [lastVal, hr, hqp]] at h
          exact Option.some.inj h
        · rw [show lastVal ((q, w) :: rest) p = none by simp [lastVal, hr, hqp]] at h
          cases h
      obtain ⟨rfl, rfl⟩ := hq
      exact dirichlet_go_preserves rest _ _ (lastVal_none_not_mem rest hr)
        (dirichlet_step_establishes K f q w)

lemma constrained_row_solution {nn : ℕ} {K : Mat nn} {f u : Vec nn} {p : Fin nn} {v : ℚ}
    (h : Constrained K f p v) (hu : K.mulVec u = f) : u p = v := by
  obtain ⟨h1, _, h3, h4⟩ := h
  have hrow : K.mulVec u p = f p := congrFun hu p
  have hsum : ∑ j, K p j * u j = u p := by
    rw [Finset.sum_eq_single p]
    · rw [h3, one_mul]
    · intro j _ hj; rw [h1 j hj, zero_mul]
    · intro hp; exact absurd (Finset.mem_univ p) hp
  rw [Matrix.mulVec, Matrix.dotProduct] at hrow
  rw [hsum] at hrow
  rw [hrow, h4]

/-- Claim C2: for every matrix, load vector and Dirichlet record list,
`apply_dirichlet` zeroes row and column of each constrained node, puts `1` on
its diagonal, writes the last prescribed value for that node (last-write-wins)
into the load vector, and consequently every solution of the returned system
takes that value at the node. -/
theorem C2_apply_dirichlet_constrains {nn : ℕ} (K : Mat nn) (f : Vec nn)
    (ns : List (Fin nn)) (vs : List ℚ) (p : Fin nn) (v : ℚ)
    (h : lastVal (ns.zip vs) p = some v) :
    (∀ j, j ≠ p → (apply_dirichlet K f ns vs).1 p j = 0) ∧
    (∀ i, i ≠ p → (apply_dirichlet K f ns vs).1 i p = 0) ∧
    (apply_dirichlet K f ns vs).1 p p = 1 ∧
    (apply_dirichlet K f ns vs).2 p = v ∧
    (∀ u : Vec nn, (apply_dirichlet K f ns vs).1.mulVec u = (apply_dirichlet K f ns vs).2 →
      u p = v) := by
  have hc := dirichlet_go_lastVal (ns.zip vs) K f h
  obtain ⟨h1, h2, h3, h4⟩ := hc
  exact ⟨h1, h2, h3, h4, fun u hu =>
    constrained_row_solution (dirichlet_go_lastVal (ns.zip vs) K f h) hu⟩

/-- Witness for C2 at a concrete 2-node system with the node constrained
twice: the second value wins. -/
theorem C2_witness :
    lastVal ((([0, 0] : List (Fin 2)).zip ([3, 5] : List ℚ))) (0 : Fin 2) = some 5 ∧
    ((∀ j, j ≠ (0 : Fin 2) → (apply_dirichlet Kw fw [0, 0] [3, 5]).1 0 j = 0) ∧
      (∀ i, i ≠ (0 : Fin 2) → (apply_dirichlet Kw fw [0, 0] [3, 5]).1 i 0 = 0) ∧
      (apply_dirichlet Kw fw [0, 0] [3, 5]).1 0 0 = 1 ∧
      (apply_dirichlet Kw fw [0, 0] [3, 5]).2 0 = 5 ∧
      (∀ u : Vec 2,
        (apply_dirichlet Kw fw [0, 0] [3, 5]).1.mulVec u =
          (apply_dirichlet Kw fw [0, 0] [3, 5]).2 → u 0 = 5)) :=
  ⟨by simp [lastVal],
   C2_apply_dirichlet_constrains Kw fw [0, 0] [3, 5] 0 5 (by simp [lastVal])⟩

/-! ## C10: mutation contract of the three appliers -/

/-- Claim C10: `apply_dirichlet` mutates the matrix object it receives in
place — after the call the caller's matrix holds the eliminated matrix and is
the very matrix returned — while the load-vector argument is left unchanged
and a modified copy is returned; `apply_heat_flux` and `apply_convection`
leave every caller argument unchanged. -/
theorem C10_mutation_contract {nn ne : ℕ} (hyp : ℚ → ℚ → ℚ) (K : Mat nn) (f : Vec nn)
    (ns : List (Fin nn)) (vs : List ℚ) (nodes : Fin nn → ℚ × ℚ)
    (elems : Fin ne → Fin 3 → Fin nn) (frecs : List (ℤ × ℤ × ℚ))
    (crecs : List (ℤ × ℤ × ℚ × ℚ)) :
    (apply_dirichlet_py K f ns vs).1.1 = (apply_dirichlet_py K f ns vs).2.1 ∧
    (apply_dirichlet_py K f ns vs).1.2 = f ∧
    (apply_dirichlet_py K f ns vs).2 = apply_dirichlet K f ns vs ∧
    (apply_heat_flux_py hyp f nodes elems frecs).1 = f ∧
    (apply_convection_py hyp K f nodes elems crecs).1 = (K, f) ∧
    (∀ p v, lastVal (ns.zip vs) p = some v →
      Constrained (apply_dirichlet_py K f ns vs).1.1 (apply_dirichlet_py K f ns vs).2.2 p v) :=
  ⟨rfl, rfl, rfl, rfl, rfl, fun _ _ h => dirichlet_go_lastVal (ns.zip vs) K f h⟩

/-- Witness for C10 at a concrete 3-node system, exercising the constrained
caller-side matrix clause at node 2. -/
theorem C10_witness :
    ((apply_dirichlet_py Kw3 fw3 [2] [5]).1.1 = (apply_dirichlet_py Kw3 fw3 [2] [5]).2.1 ∧
      (apply_dirichlet_py Kw3 fw3 [2] [5]).1.2 = fw3 ∧
      (apply_dirichlet_py Kw3 fw3 [2] [5]).2 = apply_dirichlet Kw3 fw3 [2] [5] ∧
      (apply_heat_flux_py hyp₀ fw3 nodes₀ elems₀ []).1 = fw3 ∧
      (apply_convection_py hyp₀ Kw3 fw3 nodes₀ elems₀ []).1 = (Kw3, fw3) ∧
      (∀ p v, lastVal ((([2] : List (Fin 3))).zip ([5] : List ℚ)) p = some v →
        Constrained (apply_dirichlet_py Kw3 fw3 [2] [5]).1.1
          (apply_dirichlet_py Kw3 fw3 [2] [5]).2.2 p v)) ∧
    Constrained (apply_dirichlet_py Kw3 fw3 [2] [5]).1.1
      (apply_dirichlet_py Kw3 fw3 [2] [5]).2.2 2 5 :=
  ⟨C10_mutation_contract hyp₀ Kw3 fw3 [2] [5] nodes₀ elems₀ [] [],
   (C10_mutation_contract hyp₀ Kw3 fw3 [2] [5] nodes₀ elems₀ [] []).2.2.2.2.2 2 5
     (by simp [lastVal])⟩

/-! ## Neumann applier lemmas and C4 -/

lemma flux_step_eq {nn ne : ℕ} (hyp : ℚ → ℚ → ℚ) (nodes : Fin nn → ℚ × ℚ)
    (elems : Fin ne → Fin 3 → Fin nn) (f : Vec nn) (r : ℤ × ℤ × ℚ) {g1 g2 : Fin nn} {L : ℚ}
    (hres : resolveEdge hyp nodes elems r.1 r.2.1 = some (g1, g2, L)) (hne : g1 ≠ g2) :
    flux_step hyp nodes elems f r = some (fun i => f i + fluxContrib hyp nodes elems r i) := by
  unfold flux_step
  rw [hres]
  show some (fancyAdd2 f g1 g2 (r.2.2 * L / 2) (r.2.2 * L / 2)) =
    some fun i => f i + fluxContrib hyp nodes elems r i
  congr 1
  funext i
  unfold fluxContrib
  rw [hres]
  rcases eq_or_ne i g2 with rfl | hig2
  · simp [fancyAdd2, hne.symm]
  · rcases eq_or_ne i g1 with rfl | hig1
    · simp [fancyAdd2, Function.update_noteq hig2, hne]
    · simp [fancyAdd2, Function.update_noteq hig2, Function.update_noteq hig1, hig1, hig2]

/-- Claim C4: on records whose element id resolves and whose edge id is a
valid dict key (with the two resolved endpoints distinct, as on any
non-degenerate mesh), `apply_heat_flux` returns the input vector plus the sum
of the per-record edge loads `q*L/2` at the two resolved nodes of each
record; contributions accumulate additively over the record list (so a
duplicated record contributes twice) and all other entries are unchanged. -/
theorem C4_apply_heat_flux {nn ne : ℕ} (hyp : ℚ → ℚ → ℚ) (nodes : Fin nn → ℚ × ℚ)
    (elems : Fin ne → Fin 3 → Fin nn) (f : Vec nn) (recs : List (ℤ × ℤ × ℚ))
    (hval : ∀ r ∈ recs, Resolves hyp nodes elems r.1 r.2.1) :
    apply_heat_flux hyp f nodes elems recs =
      some (fun i => f i + fluxLoad hyp nodes elems recs i) := by
  induction recs generalizing f with
  | nil => simp [apply_heat_flux, fluxLoad]
  | cons r rs ih =>
    obtain ⟨g1, g2, L, hres, hne⟩ := hval r (List.mem_cons_self _ _)
    rw [show apply_heat_flux hyp f nodes elems (r :: rs) =
        match flux_step hyp nodes elems f r with
        | none => none
        | some f' => apply_heat_flux hyp f' nodes elems rs from rfl]
    rw [flux_step_eq hyp nodes elems f r hres hne]
    show apply_heat_flux hyp (fun i => f i + fluxContrib hyp nodes elems r i) nodes elems rs =
      some fun i => f i + fluxLoad hyp nodes elems (r :: rs) i
    rw [ih _ (fun r' hr' => hval r' (List.mem_cons_of_mem _ hr'))]
    congr 1
    funext i
    simp [fluxLoad, List.map_cons, List.sum_cons]
    ring

/-- Witness for C4: one flux record on edge 2 of the only element of the unit
right triangle. -/
theorem C4_witness :
    (∀ r ∈ ([((0 : ℤ), (2 : ℤ), (4 : ℚ))] : List (ℤ × ℤ × ℚ)),
      Resolves hyp₀ nodes₀ elems₀ r.1 r.2.1) ∧
    apply_heat_flux hyp₀ fw3 nodes₀ elems₀ [((0 : ℤ), (2 : ℤ), (4 : ℚ))] =
      some (fun i => fw3 i + fluxLoad hyp₀ nodes₀ elems₀ [((0 : ℤ), (2 : ℤ), (4 : ℚ))] i) := by
  have hv : ∀ r ∈ ([((0 : ℤ), (2 : ℤ), (4 : ℚ))] : List (ℤ × ℤ × ℚ)),
      Resolves hyp₀ nodes₀ elems₀ r.1 r.2.1 := by
    intro r hr
    rw [List.mem_singleton] at hr
    subst hr
    refine ⟨1, 2, 2, ?_, by decide⟩
    rw [show resolveEdge hyp₀ nodes₀ elems₀ (0 : ℤ) (2 : ℤ) =
        match npIndex 1 (0 : ℤ) with
        | none => none
        | some e =>
          match edgeLocalNodes (2 : ℤ) with
          | none => none
          | some (n1, n2) =>
            some (elems₀ e n1, elems₀ e n2,
              hyp₀ ((nodes₀ (elems₀ e n2)).1 - (nodes₀ (elems₀ e n1)).1)
                ((nodes₀ (elems₀ e n2)).2 - (nodes₀ (elems₀ e n1)).2)) from rfl]
    rw [show npIndex 1 (0 : ℤ) = some 0 by rw [npIndex, dif_pos (by norm_num)]; rfl]
    rw [show edgeLocalNodes (2 : ℤ) = some (1, 2) by
      rw [edgeLocalNodes, if_neg (by norm_num), if_pos rfl]]
    simp [nodes₀, elems₀, hyp₀]
    norm_num
  exact ⟨hv, C4_apply_heat_flux hyp₀ nodes₀ elems₀ fw3 _ hv⟩

/-! ## Robin applier lemmas and C5 -/

lemma conv_step_eq {nn ne : ℕ} (hyp : ℚ → ℚ → ℚ) (nodes : Fin nn → ℚ × ℚ)
    (elems : Fin ne → Fin 3 → Fin nn) (K : Mat nn) (f : Vec nn) (r : ℤ × ℤ × ℚ × ℚ)
    {g1 g2 : Fin nn} {L : ℚ}
    (hres : resolveEdge hyp nodes elems r.1 r.2.1 = some (g1, g2, L)) (hne : g1 ≠ g2) :
    conv_step hyp nodes elems K f r =
      some (Matrix.of fun i j => K i j + convContribMat hyp nodes elems r i j,
        fun i => f i + convContribVec hyp nodes elems r i) := by
  simp only [conv_step, hres]
  refine congrArg some (Prod.ext ?_ ?_)
  · ext i j
    simp only [updEntry, Matrix.of_apply, Matrix.smul_apply, smul_eq_mul]
    unfold convContribMat
    rw [hres]
    by_cases hi1 : i = g1 <;> by_cases hj1 : j = g1 <;> by_cases hi2 : i = g2 <;>
      by_cases hj2 : j = g2 <;>
      simp_all [Matrix.cons_val_zero, Matrix.cons_val_one, Matrix.head_cons] <;> ring
  · funext i
    unfold convContribVec
    rw [hres]
    rcases eq_or_ne i g2 with rfl | hig2
    · simp [fancyAdd2, hne.symm]
    · rcases eq_or_ne i g1 with rfl | hig1
      · simp [fancyAdd2, Function.update_noteq hig2, hne]
      · simp [fancyAdd2, Function.update_noteq hig2, Function.update_noteq hig1, hig1, hig2]

/-- Claim C5: on records whose element id resolves and whose edge id is a
valid dict key (distinct resolved endpoints, as on any non-degenerate mesh),
`apply_convection` returns the matrix plus the scatter-added symmetric 2×2
blocks `h*L/6*[[2,1],[1,2]]` and the vector plus the edge loads
`h*Tinf*L/2*[1,1]`, accumulating additively over the record list. -/
theorem C5_apply_convection {nn ne : ℕ} (hyp : ℚ → ℚ → ℚ) (nodes : Fin nn → ℚ × ℚ)
    (elems : Fin ne → Fin 3 → Fin nn) (K : Mat nn) (f : Vec nn)
    (recs : List (ℤ × ℤ × ℚ × ℚ))
    (hval : ∀ r ∈ recs, Resolves hyp nodes elems r.1 r.2.1) :
    apply_convection hyp K f nodes elems recs =
      some (Matrix.of fun i j => K i j + convLoadMat hyp nodes elems recs i j,
        fun i => f i + convLoadVec hyp nodes elems recs i) := by
  induction recs generalizing K f with
  | nil =>
    simp only [apply_convection, convLoadMat, convLoadVec, List.map_nil, List.sum_nil, add_zero]
    rfl
  | cons r rs ih =>
    obtain ⟨g1, g2, L, hres, hne⟩ := hval r (List.mem_cons_self _ _)
    rw [show apply_convection hyp K f nodes elems (r :: rs) =
        match conv_step hyp nodes elems K f r with
        | none => none
        | some (K', f') => apply_convection hyp K' f' nodes elems rs from rfl]
    rw [conv_step_eq hyp nodes elems K f r hres hne]
    show apply_convection hyp (Matrix.of fun i j => K i j + convContribMat hyp nodes elems r i j)
      (fun i => f i + convContribVec hyp nodes elems r i) nodes elems rs =
      some (Matrix.of fun i j => K i j + convLoadMat hyp nodes elems (r :: rs) i j,
        fun i => f i + convLoadVec hyp nodes elems (r :: rs) i)
    rw [ih _ _ (fun r' hr' => hval r' (List.mem_cons_of_mem _ hr'))]
    refine congrArg some (Prod.ext ?_ ?_)
    · ext i j
      simp [convLoadMat, List.map_cons, List.sum_cons]
      ring
    · funext i
      simp [convLoadVec, List.map_cons, List.sum_cons]
      ring

/-! ## Concrete edge resolutions on the unit right triangle -/

lemma resolve_e0_edge1 : resolveEdge hyp₀ nodes₀ elems₀ 0 1 = some (0, 1, 1) := by
  rw [show resolveEdge hyp₀ nodes₀ elems₀ (0 : ℤ) (1 : ℤ) =
      match npIndex 1 (0 : ℤ) with
      | none => none
      | some e =>
        match edgeLocalNodes (1 : ℤ) with
        | none => none
        | some (n1, n2) =>
          some (elems₀ e n1, elems₀ e n2,
            hyp₀ ((nodes₀ (elems₀ e n2)).1 - (nodes₀ (elems₀ e n1)).1)
              ((nodes₀ (elems₀ e n2)).2 - (nodes₀ (elems₀ e n1)).2)) from rfl]
  rw [show npIndex 1 (0 : ℤ) = some 0 by rw [npIndex, dif_pos (by norm_num)]; rfl]
  rw [show edgeLocalNodes (1 : ℤ) = some (0, 1) by rw [edgeLocalNodes, if_pos rfl]]
  simp [nodes₀, elems₀, hyp₀]

lemma resolve_em1_edge1 : resolveEdge hyp₀ nodes₀ elems₀ (-1) 1 = some (0, 1, 1) := by
  rw [show resolveEdge hyp₀ nodes₀ elems₀ (-1 : ℤ) (1 : ℤ) =
      match npIndex 1 (-1 : ℤ) with
      | none => none
      | some e =>
        match edgeLocalNodes (1 : ℤ) with
        | none => none
        | some (n1, n2) =>
          some (elems₀ e n1, elems₀ e n2,
            hyp₀ ((nodes₀ (elems₀ e n2)).1 - (nodes₀ (elems₀ e n1)).1)
              ((nodes₀ (elems₀ e n2)).2 - (nodes₀ (elems₀ e n1)).2)) from rfl]
  rw [show npIndex 1 (-1 : ℤ) = some 0 by
    rw [npIndex, dif_neg (by norm_num), dif_pos (by norm_num)]; rfl]
  rw [show edgeLocalNodes (1 : ℤ) = some (0, 1) by rw [edgeLocalNodes, if_pos rfl]]
  simp [nodes₀, elems₀, hyp₀]

/-- Witness for C5: one convection record on edge 1 of the only element. -/
theorem C5_witness :
    (∀ r ∈ ([((0 : ℤ), (1 : ℤ), (6 : ℚ), (2 : ℚ))] : List (ℤ × ℤ × ℚ × ℚ)),
      Resolves hyp₀ nodes₀ elems₀ r.1 r.2.1) ∧
    apply_convection hyp₀ Kw3 fw3 nodes₀ elems₀ [((0 : ℤ), (1 : ℤ), (6 : ℚ), (2 : ℚ))] =
      some (Matrix.of fun i j => Kw3 i j +
          convLoadMat hyp₀ nodes₀ elems₀ [((0 : ℤ), (1 : ℤ), (6 : ℚ), (2 : ℚ))] i j,
        fun i => fw3 i +
          convLoadVec hyp₀ nodes₀ elems₀ [((0 : ℤ), (1 : ℤ), (6 : ℚ), (2 : ℚ))] i) := by
  have hv : ∀ r ∈ ([((0 : ℤ), (1 : ℤ), (6 : ℚ), (2 : ℚ))] : List (ℤ × ℤ × ℚ × ℚ)),
      Resolves hyp₀ nodes₀ elems₀ r.1 r.2.1 := by
    intro r hr
    rw [List.mem_singleton] at hr
    subst hr
    exact ⟨0, 1, 1, resolve_e0_edge1, by decide⟩
  exact ⟨hv, C5_apply_convection hyp₀ nodes₀ elems₀ Kw3 fw3 _ hv⟩

/-! ## C6: rejection of invalid boundary records -/

lemma resolveEdge_none_of_rejected {nn ne : ℕ} (hyp : ℚ → ℚ → ℚ) (nodes : Fin nn → ℚ × ℚ)
    (elems : Fin ne → Fin 3 → Fin nn) {elem_id edge_id : ℤ}
    (h : RecRejected ne elem_id edge_id) :
    resolveEdge hyp nodes elems elem_id edge_id = none := by
  unfold resolveEdge
  rcases h with ⟨h1, h2, h3⟩ | helem | helem
  · have he : edgeLocalNodes edge_id = none := by
      rw [edgeLocalNodes, if_neg h1, if_neg h2, if_neg h3]
    cases hnp : npIndex ne elem_id with
    | none => rfl
    | some e => simp [he]
  · have hn : npIndex ne elem_id = none := by
      rw [npIndex, dif_neg (by omega), dif_neg (by omega)]
    simp [hn]
  · have hn : npIndex ne elem_id = none := by
      rw [npIndex, dif_neg (by omega), dif_neg (by omega)]
    simp [hn]

lemma apply_heat_flux_none {nn ne : ℕ} (hyp : ℚ → ℚ → ℚ) (nodes : Fin nn → ℚ × ℚ)
    (elems : Fin ne → Fin 3 → Fin nn) (recs : List (ℤ × ℤ × ℚ)) :
    ∀ f : Vec nn, (∃ r ∈ recs, RecRejected ne r.1 r.2.1) →
      apply_heat_flux hyp f nodes elems recs = none := by
  induction recs with
  | nil => intro f h; obtain ⟨r, hr, _⟩ := h; exact absurd hr (List.not_mem_nil _)
  | cons r rs ih =>
    intro f h
    rw [show apply_heat_flux hyp f nodes elems (r :: rs) =
        match flux_step hyp nodes elems f r with
        | none => none
        | some f' => apply_heat_flux hyp f' nodes elems rs from rfl]
    obtain ⟨r0, hr0, hbad⟩ := h
    rcases List.mem_cons.1 hr0 with rfl | hmem
    · rw [show flux_step hyp nodes elems f r0 = none by
        unfold flux_step; rw [resolveEdge_none_of_rejected hyp nodes elems hbad]]
    · cases hstep : flux_step hyp nodes elems f r with
      | none => rfl
      | some f' => exact ih f' ⟨r0, hmem, hbad⟩

lemma apply_convection_none {nn ne : ℕ} (hyp : ℚ → ℚ → ℚ) (nodes : Fin nn → ℚ × ℚ)
    (elems : Fin ne → Fin 3 → Fin nn) (recs : List (ℤ × ℤ × ℚ × ℚ)) :
    ∀ (K : Mat nn) (f : Vec nn), (∃ r ∈ recs, RecRejected ne r.1 r.2.1) →
      apply_convection hyp K f nodes elems recs = none := by
  induction recs with
  | nil => intro K f h; obtain ⟨r, hr, _⟩ := h; exact absurd hr (List.not_mem_nil _)
  | cons r rs ih =>
    intro K f h
    rw [show apply_convection hyp K f nodes elems (r :: rs) =
        match conv_step hyp nodes elems K f r with
        | none => none
        | some (K', f') => apply_convection hyp K' f' nodes elems rs from rfl]
    obtain ⟨r0, hr0, hbad⟩ := h
    rcases List.mem_cons.1 hr0 with rfl | hmem
    · rw [show conv_step hyp nodes elems K f r0 = none by
        unfold conv_step; rw [resolveEdge_none_of_rejected hyp nodes elems hbad]]
    · cases hstep : conv_step hyp nodes elems K f r with
      | none => rfl
      | some Kf => exact ih Kf.1 Kf.2 ⟨r0, hmem, hbad⟩

/-- Counterexample to C6 as stated: the element id `-1` is outside the valid
element index range `{0}` of the one-element mesh, yet `apply_heat_flux` does
not fail — numpy indexing wraps `-1` to the last element and the record's
contribution `q*L/2 = 2*1/2 = 1` is silently applied at nodes 0 and 1. -/
theorem C6_counterexample :
    apply_heat_flux hyp₀ fw3 nodes₀ elems₀ [((-1 : ℤ), (1 : ℤ), (2 : ℚ))] =
      some ![1, 1, 0] := by
  rw [show apply_heat_flux hyp₀ fw3 nodes₀ elems₀ [((-1 : ℤ), (1 : ℤ), (2 : ℚ))] =
      match flux_step hyp₀ nodes₀ elems₀ fw3 ((-1 : ℤ), (1 : ℤ), (2 : ℚ)) with
      | none => none
      | some f' => apply_heat_flux hyp₀ f' nodes₀ elems₀ [] from rfl]
  rw [flux_step_eq hyp₀ nodes₀ elems₀ fw3 _ resolve_em1_edge1 (by decide)]
  show some (fun i => fw3 i + fluxContrib hyp₀ nodes₀ elems₀ ((-1 : ℤ), (1 : ℤ), (2 : ℚ)) i) =
    some ![1, 1, 0]
  congr 1
  funext i
  unfold fluxContrib
  rw [resolve_em1_edge1]
  fin_cases i <;> simp [fw3]

/-- Claim C6 amended: a record with local edge id outside {1,2,3}, or with
element id outside numpy's accepted range [-ne, ne), makes the applier raise
(return nothing) and the caller's matrix and load vector are left unmutated;
element ids in [-ne, -1], although outside the valid range 0..ne-1, are
instead wrapped by numpy indexing and silently applied (see
`C6_counterexample`). -/
theorem C6_amended_rejection {nn ne : ℕ} (hyp : ℚ → ℚ → ℚ) (K : Mat nn) (f : Vec nn)
    (nodes : Fin nn → ℚ × ℚ) (elems : Fin ne → Fin 3 → Fin nn)
    (frecs : List (ℤ × ℤ × ℚ)) (crecs : List (ℤ × ℤ × ℚ × ℚ))
    (hf : ∃ r ∈ frecs, RecRejected ne r.1 r.2.1)
    (hc : ∃ r ∈ crecs, RecRejected ne r.1 r.2.1) :
    apply_heat_flux hyp f nodes elems frecs = none ∧
    apply_convection hyp K f nodes elems crecs = none ∧
    (apply_heat_flux_py hyp f nodes elems frecs).1 = f ∧
    (apply_convection_py hyp K f nodes elems crecs).1 = (K, f) :=
  ⟨apply_heat_flux_none hyp nodes elems frecs f hf,
   apply_convection_none hyp nodes elems crecs K f hc, rfl, rfl⟩

/-- Witness for the amended C6: an edge id 7 flux record and an
out-of-range element id 5 convection record on the one-element mesh. -/
theorem C6_amended_witness :
    (∃ r ∈ ([((0 : ℤ), (7 : ℤ), (1 : ℚ))] : List (ℤ × ℤ × ℚ)),
      RecRejected 1 r.1 r.2.1) ∧
    (∃ r ∈ ([((5 : ℤ), (1 : ℤ), (1 : ℚ), (1 : ℚ))] : List (ℤ × ℤ × ℚ × ℚ)),
      RecRejected 1 r.1 r.2.1) ∧
    (apply_heat_flux hyp₀ fw3 nodes₀ elems₀ [((0 : ℤ), (7 : ℤ), (1 : ℚ))] = none ∧
      apply_convection hyp₀ Kw3 fw3 nodes₀ elems₀ [((5 : ℤ), (1 : ℤ), (1 : ℚ), (1 : ℚ))] = none ∧
      (apply_heat_flux_py hyp₀ fw3 nodes₀ elems₀ [((0 : ℤ), (7 : ℤ), (1 : ℚ))]).1 = fw3 ∧
      (apply_convection_py hyp₀ Kw3 fw3 nodes₀ elems₀
        [((5 : ℤ), (1 : ℤ), (1 : ℚ), (1 : ℚ))]).1 = (Kw3, fw3)) := by
  have hf : ∃ r ∈ ([((0 : ℤ), (7 : ℤ), (1 : ℚ))] : List (ℤ × ℤ × ℚ)),
      RecRejected 1 r.1 r.2.1 :=
    ⟨((0 : ℤ), (7 : ℤ), (1 : ℚ)), List.mem_singleton_self _, Or.inl (by norm_num)⟩
  have hc : ∃ r ∈ ([((5 : ℤ), (1 : ℤ), (1 : ℚ), (1 : ℚ))] : List (ℤ × ℤ × ℚ × ℚ)),
      RecRejected 1 r.1 r.2.1 :=
    ⟨((5 : ℤ), (1 : ℤ), (1 : ℚ), (1 : ℚ)), List.mem_singleton_self _,
      Or.inr (Or.inr (by norm_num))⟩
  exact ⟨hf, hc, C6_amended_rejection hyp₀ Kw3 fw3 nodes₀ elems₀ _ _ hf hc⟩

/-! ## Element stiffness algebra, C7, C8, C9 -/

lemma Bmat_eq (c : Fin 3 → ℚ × ℚ) :
    Bmat c = (1 / det_J c) •
      !![(c 1).2 - (c 2).2, (c 2).2 - (c 0).2, (c 0).2 - (c 1).2;
         (c 2).1 - (c 1).1, (c 0).1 - (c 2).1, (c 1).1 - (c 0).1] := by
  ext i j
  fin_cases i <;> fin_cases j <;>
    (simp [Bmat, Matrix.mul_apply, Fin.sum_univ_two, Matrix.smul_apply, smul_eq_mul]
     try ring)

lemma element_stiffness_apply (c : Fin 3 → ℚ × ℚ) (k : ℚ) (a b : Fin 3) :
    element_stiffness_triangle c k a b =
      k * ((abs (det_J c) / 2) * ∑ l : Fin 2, Bmat c l a * Bmat c l b) := by
  simp [element_stiffness_triangle, Matrix.smul_apply, Matrix.mul_apply,
    Matrix.transpose_apply, smul_eq_mul]

lemma element_stiffness_symm (c : Fin 3 → ℚ × ℚ) (k : ℚ) (a b : Fin 3) :
    element_stiffness_triangle c k a b = element_stiffness_triangle c k b a := by
  rw [element_stiffness_apply, element_stiffness_apply]
  congr 2
  exact Finset.sum_congr rfl fun l _ => mul_comm _ _

lemma Bmat_row_sum (c : Fin 3 → ℚ × ℚ) (l : Fin 2) : ∑ b : Fin 3, Bmat c l b = 0 := by
  rw [Bmat_eq]
  fin_cases l <;> simp [Fin.sum_univ_three, Matrix.smul_apply, smul_eq_mul] <;> ring

lemma element_stiffness_row_sum (c : Fin 3 → ℚ × ℚ) (k : ℚ) (a : Fin 3) :
    ∑ b : Fin 3, element_stiffness_triangle c k a b = 0 := by
  simp only [element_stiffness_apply]
  have h1 : ∀ b : Fin 3,
      k * ((abs (det_J c) / 2) * ∑ l : Fin 2, Bmat c l a * Bmat c l b) =
        ∑ l : Fin 2, (k * ((abs (det_J c) / 2) * Bmat c l a)) * Bmat c l b := by
    intro b
    rw [Finset.mul_sum, Finset.mul_sum]
    exact Finset.sum_congr rfl fun l _ => by ring
  rw [Finset.sum_congr rfl fun b _ => h1 b, Finset.sum_comm]
  refine Finset.sum_eq_zero fun l _ => ?_
  rw [← Finset.mul_sum, Bmat_row_sum, mul_zero]

/-- Claim C7: for every mesh whose elements are non-degenerate, the assembled
global matrix is exactly symmetric, because each `Ke` is symmetric and the
scatter-add is symmetric. -/
theorem C7_assemble_symmetric {nn ne : ℕ} (nodes : Fin nn → ℚ × ℚ)
    (elems : Fin ne → Fin 3 → Fin nn) (k : ℚ)
    (_hvalid : ∀ e, det_J (elemCoords nodes elems e) ≠ 0) (i j : Fin nn) :
    assemble_global nodes elems k i j = assemble_global nodes elems k j i := by
  simp only [assemble_global, Matrix.of_apply]
  refine Finset.sum_congr rfl fun e _ => ?_
  rw [Finset.sum_comm]
  refine Finset.sum_congr rfl fun x _ => Finset.sum_congr rfl fun y _ => ?_
  exact if_congr and_comm (element_stiffness_symm _ k y x) rfl

/-- Witness for C7 on the unit right triangle mesh at entry (0,1)/(1,0). -/
theorem C7_witness :
    (∀ e, det_J (elemCoords nodes₀ elems₀ e) ≠ 0) ∧
    assemble_global nodes₀ elems₀ (5 / 2) 0 1 = assemble_global nodes₀ elems₀ (5 / 2) 1 0 := by
  have hv : ∀ e, det_J (elemCoords nodes₀ elems₀ e) ≠ 0 := by
    intro e
    fin_cases e
    simp [det_J, elemCoords, nodes₀, elems₀]
  exact ⟨hv, C7_assemble_symmetric nodes₀ elems₀ (5 / 2) hv 0 1⟩

lemma assemble_global_row_sum {nn ne : ℕ} (nodes : Fin nn → ℚ × ℚ)
    (elems : Fin ne → Fin 3 → Fin nn) (k : ℚ) (i : Fin nn) :
    ∑ j, assemble_global nodes elems k i j = 0 := by
  simp only [assemble_global, Matrix.of_apply]
  rw [Finset.sum_comm]
  refine Finset.sum_eq_zero fun e _ => ?_
  rw [Finset.sum_comm]
  refine Finset.sum_eq_zero fun a _ => ?_
  rw [Finset.sum_comm]
  by_cases ha : elems e a = i
  · have hterm : ∀ b : Fin 3,
        (∑ j, if elems e a = i ∧ elems e b = j
          then element_stiffness_triangle (elemCoords nodes elems e) k a b else 0) =
          element_stiffness_triangle (elemCoords nodes elems e) k a b := by
      intro b
      simp [ha, Finset.sum_ite_eq, Finset.mem_univ]
    rw [Finset.sum_congr rfl fun b _ => hterm b]
    exact element_stiffness_row_sum _ k a
  · simp [ha]

/-- Claim C8: every row of the un-constrained assembled matrix sums to zero —
each element's `B` matrix annihilates constant fields. -/
theorem C8_row_sums {nn ne : ℕ} (nodes : Fin nn → ℚ × ℚ)
    (elems : Fin ne → Fin 3 → Fin nn) (k : ℚ)
    (_hvalid : ∀ e, det_J (elemCoords nodes elems e) ≠ 0) (i : Fin nn) :
    ∑ j, assemble_global nodes elems k i j = 0 :=
  assemble_global_row_sum nodes elems k i

/-- Witness for C8 on the unit right triangle mesh at row 0. -/
theorem C8_witness :
    (∀ e, det_J (elemCoords nodes₀ elems₀ e) ≠ 0) ∧
    ∑ j, assemble_global nodes₀ elems₀ (5 / 2) 0 j = 0 := by
  have hv : ∀ e, det_J (elemCoords nodes₀ elems₀ e) ≠ 0 := by
    intro e
    fin_cases e
    simp [det_J, elemCoords, nodes₀, elems₀]
  exact ⟨hv, C8_row_sums nodes₀ elems₀ (5 / 2) hv 0⟩

/-- Claim C9: for the right triangle with legs `a`, `b` on the axes and
`k = 1`, the element stiffness matrix equals the analytic
`(1/(2ab)) * [[a²+b², -b², -a²], [-b², b², 0], [-a², 0, a²]]`. -/
theorem C9_right_triangle (a b : ℚ) (ha : 0 < a) (hb : 0 < b) :
    element_stiffness_triangle ![(0, 0), (a, 0), (0, b)] 1 =
      (1 / (2 * a * b)) •
        !![a ^ 2 + b ^ 2, -b ^ 2, -a ^ 2; -b ^ 2, b ^ 2, 0; -a ^ 2, 0, a ^ 2] := by
  have hd : det_J ![(0, 0), (a, 0), (0, b)] = a * b := by
    simp [det_J]
  have habs : abs (det_J ![(0, 0), (a, 0), (0, b)]) = a * b := by
    rw [hd]
    exact abs_of_pos (mul_pos ha hb)
  ext i j
  rw [element_stiffness_apply, habs]
  rw [Bmat_eq, hd]
  fin_cases i <;> fin_cases j <;>
    (simp [Fin.sum_univ_two, Matrix.smul_apply, smul_eq_mul]
     try field_simp
     try ring)

/-- Witness for C9 at legs 3 and 4. -/
theorem C9_witness :
    (0 : ℚ) < 3 ∧ (0 : ℚ) < 4 ∧
    element_stiffness_triangle ![(0, 0), ((3 : ℚ), 0), (0, (4 : ℚ))] 1 =
      ((1 : ℚ) / (2 * 3 * 4)) •
        !![(3 : ℚ) ^ 2 + 4 ^ 2, -4 ^ 2, -3 ^ 2; -4 ^ 2, 4 ^ 2, 0; -3 ^ 2, 0, 3 ^ 2] :=
  ⟨by norm_num, by norm_num, C9_right_triangle 3 4 (by norm_num) (by norm_num)⟩

/-! ## C1: the Robin matrix terms are dropped before the solve -/

lemma assemble_elems0 (nodes : Fin 3 → ℚ × ℚ) (k : ℚ) (i j : Fin 3) :
    assemble_global nodes elems₀ k i j = element_stiffness_triangle nodes k i j := by
  have hconn : ∀ a : Fin 3, elems₀ 0 a = a := by decide
  have hcoords : elemCoords nodes elems₀ 0 = nodes := by
    funext l
    simp [elemCoords, hconn]
  simp only [assemble_global, Matrix.of_apply, Fin.sum_univ_one, hconn, hcoords]
  have hinner : ∀ a : Fin 3,
      (∑ b : Fin 3, if a = i ∧ b = j then element_stiffness_triangle nodes k a b else 0) =
        if a = i then element_stiffness_triangle nodes k a j else 0 := by
    intro a
    by_cases hai : a = i
    · simp [hai, Finset.sum_ite_eq', Finset.mem_univ]
    · simp [hai]
  rw [Finset.sum_congr rfl fun a _ => hinner a]
  simp [Finset.sum_ite_eq', Finset.mem_univ]

lemma Ke_unit_01 : element_stiffness_triangle nodes₀ 1 0 1 = -(1 / 2) := by
  rw [element_stiffness_apply, Bmat_eq]
  have hd : det_J nodes₀ = 1 := by
    simp [det_J, nodes₀]
  rw [hd]
  norm_num [Fin.sum_univ_two, Matrix.smul_apply, smul_eq_mul, nodes₀]

lemma convContrib_unit_01 :
    convContribMat hyp₀ nodes₀ elems₀ ((0 : ℤ), (1 : ℤ), (6 : ℚ), (0 : ℚ)) 0 1 = 1 := by
  unfold convContribMat
  simp only [resolve_e0_edge1]
  rw [if_neg (by decide), if_pos (by decide), if_neg (by decide), if_neg (by decide)]
  norm_num

lemma conv_unit_eq :
    apply_convection hyp₀ (assemble_global nodes₀ elems₀ 1) (fun _ => 0) nodes₀ elems₀
        [((0 : ℤ), (1 : ℤ), (6 : ℚ), (0 : ℚ))] =
      some (Matrix.of fun i j => assemble_global nodes₀ elems₀ 1 i j +
          convContribMat hyp₀ nodes₀ elems₀ ((0 : ℤ), (1 : ℤ), (6 : ℚ), (0 : ℚ)) i j,
        fun i => (0 : ℚ) +
          convContribVec hyp₀ nodes₀ elems₀ ((0 : ℤ), (1 : ℤ), (6 : ℚ), (0 : ℚ)) i) := by
  rw [show apply_convection hyp₀ (assemble_global nodes₀ elems₀ 1) (fun _ => 0) nodes₀ elems₀
      [((0 : ℤ), (1 : ℤ), (6 : ℚ), (0 : ℚ))] =
      match conv_step hyp₀ nodes₀ elems₀ (assemble_global nodes₀ elems₀ 1) (fun _ => 0)
          ((0 : ℤ), (1 : ℤ), (6 : ℚ), (0 : ℚ)) with
      | none => none
      | some (K', f') => apply_convection hyp₀ K' f' nodes₀ elems₀ [] from rfl]
  rw [conv_step_eq hyp₀ nodes₀ elems₀ _ _ _ resolve_e0_edge1 (by decide)]
  rfl

/-- C1 as the code has it: with one convection record on edge 1 and a
Dirichlet condition only at node 2, the matrix `main.py` hands to the solver
has entry (0,1) equal to the bare assembled value `-1/2` — the Robin block
that `apply_convection` returned was discarded because line 46 passes `K`
instead of `Kmod` to `apply_dirichlet` — whereas the pipeline the spec
describes yields `-1/2 + h*L/6 = 1/2` there. -/
theorem C1_robin_terms_dropped :
    ((main_pipeline hyp₀ nodes₀ elems₀ 1 [] [((0 : ℤ), (1 : ℤ), (6 : ℚ), (0 : ℚ))] [2] [0]).map
        fun s => s.1 0 1) = some (-(1 / 2)) ∧
    ((spec_pipeline hyp₀ nodes₀ elems₀ 1 [] [((0 : ℤ), (1 : ℤ), (6 : ℚ), (0 : ℚ))] [2] [0]).map
        fun s => s.1 0 1) = some (1 / 2) := by
  constructor
  · rw [show main_pipeline hyp₀ nodes₀ elems₀ 1 [] [((0 : ℤ), (1 : ℤ), (6 : ℚ), (0 : ℚ))] [2] [0] =
        match apply_convection hyp₀ (assemble_global nodes₀ elems₀ 1) (fun _ => 0) nodes₀ elems₀
            [((0 : ℤ), (1 : ℤ), (6 : ℚ), (0 : ℚ))] with
        | none => none
        | some (_Kmod, fmod2) =>
          some (apply_dirichlet (assemble_global nodes₀ elems₀ 1) fmod2 [2] [0]) from rfl]
    rw [conv_unit_eq]
    show some ((apply_dirichlet (assemble_global nodes₀ elems₀ 1) _ [2] [0]).1 0 1) =
      some (-(1 / 2))
    congr 1
    show (if (0 : Fin 3) = 2 ∧ (1 : Fin 3) = 2 then (1 : ℚ)
      else if (0 : Fin 3) = 2 ∨ (1 : Fin 3) = 2 then 0
      else assemble_global nodes₀ elems₀ 1 0 1) = -(1 / 2)
    rw [if_neg (by decide), if_neg (by decide), assemble_elems0, Ke_unit_01]
  · rw [show spec_pipeline hyp₀ nodes₀ elems₀ 1 [] [((0 : ℤ), (1 : ℤ), (6 : ℚ), (0 : ℚ))] [2] [0] =
        match apply_convection hyp₀ (assemble_global nodes₀ elems₀ 1) (fun _ => 0) nodes₀ elems₀
            [((0 : ℤ), (1 : ℤ), (6 : ℚ), (0 : ℚ))] with
        | none => none
        | some (Kmod, fmod2) => some (apply_dirichlet Kmod fmod2 [2] [0]) from rfl]
    rw [conv_unit_eq]
    show some ((apply_dirichlet (Matrix.of fun i j => assemble_global nodes₀ elems₀ 1 i j +
        convContribMat hyp₀ nodes₀ elems₀ ((0 : ℤ), (1 : ℤ), (6 : ℚ), (0 : ℚ)) i j) _ [2] [0]).1
        0 1) = some (1 / 2)
    congr 1
    show (if (0 : Fin 3) = 2 ∧ (1 : Fin 3) = 2 then (1 : ℚ)
      else if (0 : Fin 3) = 2 ∨ (1 : Fin 3) = 2 then 0
      else assemble_global nodes₀ elems₀ 1 0 1 +
        convContribMat hyp₀ nodes₀ elems₀ ((0 : ℤ), (1 : ℤ), (6 : ℚ), (0 : ℚ)) 0 1) = 1 / 2
    rw [if_neg (by decide), if_neg (by decide), assemble_elems0, Ke_unit_01, convContrib_unit_01]
    norm_num

/-! ## C3: with zero Dirichlet constraints a singular matrix reaches the solver -/

/-- C3 at the failing input: with no boundary conditions at all, the pair
`main.py` hands to `solve_system` is exactly the raw assembled system, its
matrix annihilates the constant vector (every row sums to zero), that vector
is non-zero, and hence the matrix handed to the solver has determinant zero —
the solve step receives an exactly singular system. -/
theorem C3_singular_system_reaches_solver :
    main_pipeline hyp₀ nodes₀ elems₀ 1 [] [] [] [] =
      some (assemble_global nodes₀ elems₀ 1, fun _ => 0) ∧
    (assemble_global nodes₀ elems₀ 1).mulVec (fun _ => 1) = 0 ∧
    (fun _ => (1 : ℚ)) ≠ (0 : Vec 3) ∧
    (assemble_global nodes₀ elems₀ 1).det = 0 := by
  have hmv : (assemble_global nodes₀ elems₀ 1).mulVec (fun _ => 1) = 0 := by
    funext i
    show ∑ j, assemble_global nodes₀ elems₀ 1 i j * 1 = 0
    simp only [mul_one]
    exact assemble_global_row_sum nodes₀ elems₀ 1 i
  have hone : (fun _ => (1 : ℚ)) ≠ (0 : Vec 3) := by
    intro h
    have := congrFun h 0
    norm_num at this
  refine ⟨rfl, hmv, hone, ?_⟩
  exact (Matrix.exists_mulVec_eq_zero_iff).1 ⟨fun _ => 1, hone, hmv⟩

end SEMFE
